import Mathlib

set_option linter.unusedSectionVars false

/-!
Verification of the sparse 2D matrix container in
src/include/sparse/matrix.hpp.

The container stores only occupied cells in an ordered map keyed by the
coordinate pair, ordered lexicographically by x then y.  We embed the
std::map backing store as a strictly sorted association list (the ordered
map invariant), and translate the storage primitives set / find / size,
the RowProxy / CellProxy accessor protocol, and iteration over occupied
cells.
-/

namespace sparse

/-- Coordinate key, from struct Key in matrix.hpp. -/
structure Key where
  x : Int
  y : Int
deriving DecidableEq, Repr

/-- Key ordering, from Key.operator< : (x < rhs.x) || ((x == rhs.x) && (y < rhs.y)). -/
def Key.lt (a b : Key) : Bool :=
  (decide (a.x < b.x)) || ((decide (a.x = b.x)) && decide (a.y < b.y))

variable {T : Type} [DecidableEq T]

/-- Lookup in the backing map, as std::map::find: the entry whose key is
equivalent to the searched key (unique in a well-formed map). -/
def mapFind (k : Key) : List (Key × T) → Option T
  | [] => none
  | (k₀, v₀) :: rest => if k = k₀ then some v₀ else mapFind k rest

/-- Insert-or-overwrite in the backing map, as std::map::operator[] followed
by assignment: keeps the list strictly sorted by Key.lt. -/
def mapInsert (k : Key) (v : T) : List (Key × T) → List (Key × T)
  | [] => [(k, v)]
  | (k₀, v₀) :: rest =>
    if Key.lt k k₀ then (k, v) :: (k₀, v₀) :: rest
    else if Key.lt k₀ k then (k₀, v₀) :: mapInsert k v rest
    else (k, v) :: rest

/-- Erase the entry at a key if present, as std::map::erase of the iterator
returned by find. -/
def mapErase (k : Key) : List (Key × T) → List (Key × T)
  | [] => []
  | (k₀, v₀) :: rest => if k = k₀ then rest else (k₀, v₀) :: mapErase k rest

/-- The container: Matrix<T, Default, Index> with its map data_.  The
Default value is passed explicitly to the operations that consult it. -/
structure Matrix (T : Type) where
  data_ : List (Key × T)
deriving DecidableEq, Repr

/-- A freshly constructed container: the map is created empty. -/
def Matrix.empty : Matrix T := ⟨[]⟩

/-- Matrix::set, the single mutation path: erase on a write of Default,
insert-or-overwrite otherwise. -/
def Matrix.set (m : Matrix T) (D : T) (x y : Int) (v : T) : Matrix T :=
  if v = D then ⟨mapErase ⟨x, y⟩ m.data_⟩
  else ⟨mapInsert ⟨x, y⟩ v m.data_⟩

/-- Matrix::find: pointer to the stored value, or null when absent,
rendered as Option. -/
def Matrix.find (m : Matrix T) (x y : Int) : Option T :=
  mapFind ⟨x, y⟩ m.data_

/-- Matrix::size: number of occupied entries. -/
def Matrix.size (m : Matrix T) : Nat :=
  m.data_.length

/-- Full iteration begin()..end(): each dereference materializes the triple
(key.x, key.y, value). -/
def Matrix.toList (m : Matrix T) : List (Int × Int × T) :=
  m.data_.map (fun p => (p.1.x, p.1.y, p.2))

/-- RowProxy: borrows the container and the first coordinate. -/
structure RowProxy (T : Type) where
  m_ : Matrix T
  x_ : Int

/-- CellProxy: borrows the container and both coordinates. -/
structure CellProxy (T : Type) where
  m_ : Matrix T
  x_ : Int
  y_ : Int

/-- Matrix::operator[]: builds the row proxy, touching no storage. -/
def Matrix.idx (m : Matrix T) (x : Int) : RowProxy T :=
  ⟨m, x⟩

/-- RowProxy::operator[]: builds the cell proxy, touching no storage. -/
def RowProxy.idx (r : RowProxy T) (y : Int) : CellProxy T :=
  ⟨r.m_, r.x_, y⟩

/-- CellProxy::operator T: read conversion, re-queries storage on every
use; Default when the coordinate is absent. -/
def CellProxy.read (c : CellProxy T) (D : T) : T :=
  (c.m_.find c.x_ c.y_).getD D

/-- CellProxy::operator=: writes through Matrix::set and returns the same
cell handle (same coordinates, borrowing the updated container). -/
def CellProxy.assign (c : CellProxy T) (D : T) (v : T) : CellProxy T :=
  ⟨c.m_.set D c.x_ c.y_ v, c.x_, c.y_⟩

/-- The ordered-map representation invariant: keys strictly ascend in the
Key.lt order (hence are pairwise distinct). -/
def Matrix.Wf (m : Matrix T) : Prop :=
  m.data_.Pairwise (fun a b => Key.lt a.1 b.1 = true)

/-- The no-default-entries invariant: no stored value equals Default. -/
def noDefault (D : T) (m : Matrix T) : Prop :=
  ∀ p ∈ m.data_, p.2 ≠ D

/-- Run a sequence of writes (x, y, v) through the container, each going
through the single mutation path Matrix::set. -/
def applyOps (D : T) (ops : List (Int × Int × T)) (m : Matrix T) : Matrix T :=
  ops.foldl (fun acc op => acc.set D op.1 op.2.1 op.2.2) m

/-! Helper lemmas about the key order. -/

theorem Key.lt_iff (a b : Key) :
    Key.lt a b = true ↔ (a.x < b.x ∨ (a.x = b.x ∧ a.y < b.y)) := by
  simp [Key.lt]

theorem Key.lt_self (a : Key) : Key.lt a a = false := by
  simp [Key.lt]

theorem Key.eq_of_both_not_lt {a b : Key}
    (h₁ : ¬ Key.lt a b = true) (h₂ : ¬ Key.lt b a = true) : a = b := by
  cases a
  cases b
  simp [Key.lt] at h₁ h₂ ⊢
  omega

theorem Key.lt_trans {a b c : Key}
    (h₁ : Key.lt a b = true) (h₂ : Key.lt b c = true) : Key.lt a c = true := by
  cases a
  cases b
  cases c
  simp [Key.lt] at h₁ h₂ ⊢
  omega

theorem Key.ne_of_lt {a b : Key} (h : Key.lt a b = true) : a ≠ b := by
  intro he
  subst he
  simp [Key.lt_self] at h

/-! Helper lemmas about the backing-map operations. -/

theorem mapFind_mem {k : Key} {w : T} {l : List (Key × T)}
    (h : mapFind k l = some w) : (k, w) ∈ l := by
  induction l with
  | nil => simp [mapFind] at h
  | cons p rest ih =>
    obtain ⟨k₀, v₀⟩ := p
    by_cases he : k = k₀
    · subst he
      simp [mapFind] at h
      simp [h]
    · simp [mapFind, he] at h
      simp [ih h]

theorem mapFind_of_mem {k : Key} {w : T} {l : List (Key × T)}
    (hs : l.Pairwise (fun a b => Key.lt a.1 b.1 = true))
    (h : (k, w) ∈ l) : mapFind k l = some w := by
  induction l with
  | nil => simp at h
  | cons p rest ih =>
    obtain ⟨k₀, v₀⟩ := p
    rcases List.pairwise_cons.mp hs with ⟨hall, hrest⟩
    rcases List.mem_cons.mp h with h₁ | h₂
    · rcases Prod.mk.injEq .. ▸ h₁ with ⟨he, hv⟩
      simp [mapFind, he, hv]
    · have hk : Key.lt k₀ k = true := hall _ h₂
      have hne : k ≠ k₀ := fun he => Key.ne_of_lt hk he.symm
      simp [mapFind, hne, ih hrest h₂]

theorem mapFind_eq_none {k : Key} {l : List (Key × T)}
    (h : ∀ p ∈ l, k ≠ p.1) : mapFind k l = none := by
  induction l with
  | nil => simp [mapFind]
  | cons p rest ih =>
    obtain ⟨k₀, v₀⟩ := p
    have hne : k ≠ k₀ := h (k₀, v₀) (List.mem_cons_self ..)
    simp [mapFind, hne]
    exact ih fun q hq => h q (List.mem_cons_of_mem _ hq)

theorem mapFind_mapInsert_self (k : Key) (v : T) (l : List (Key × T)) :
    mapFind k (mapInsert k v l) = some v := by
  induction l with
  | nil => simp [mapInsert, mapFind]
  | cons p rest ih =>
    obtain ⟨k₀, v₀⟩ := p
    by_cases h₁ : Key.lt k k₀ = true
    · simp [mapInsert, h₁, mapFind]
    · by_cases h₂ : Key.lt k₀ k = true
      · have hne : k ≠ k₀ := fun he => Key.ne_of_lt h₂ he.symm
        simp [mapInsert, h₁, h₂, mapFind, hne, ih]
      · simp [mapInsert, h₁, h₂, mapFind]

theorem mapFind_mapInsert_other {k k₁ : Key} (hne : k₁ ≠ k) (v : T) (l : List (Key × T)) :
    mapFind k₁ (mapInsert k v l) = mapFind k₁ l := by
  induction l with
  | nil => simp [mapInsert, mapFind, hne]
  | cons p rest ih =>
    obtain ⟨k₀, v₀⟩ := p
    by_cases h₁ : Key.lt k k₀ = true
    · simp [mapInsert, h₁, mapFind, hne]
    · by_cases h₂ : Key.lt k₀ k = true
      · by_cases he : k₁ = k₀ <;> simp [mapInsert, h₁, h₂, mapFind, he, ih]
      · have he : k = k₀ := Key.eq_of_both_not_lt h₁ h₂
        subst he
        simp [mapInsert, h₁, h₂, mapFind, hne]

theorem mapFind_mapErase_other {k k₁ : Key} (hne : k₁ ≠ k) (l : List (Key × T)) :
    mapFind k₁ (mapErase k l) = mapFind k₁ l := by
  induction l with
  | nil => simp [mapErase]
  | cons p rest ih =>
    obtain ⟨k₀, v₀⟩ := p
    by_cases he : k = k₀
    · subst he
      simp [mapErase, mapFind, hne]
    · by_cases he₁ : k₁ = k₀ <;> simp [mapErase, mapFind, he, he₁, ih]

theorem mapErase_sublist (k : Key) (l : List (Key × T)) : List.Sublist (mapErase k l) l := by
  induction l with
  | nil => simp [mapErase]
  | cons p rest ih =>
    obtain ⟨k₀, v₀⟩ := p
    by_cases he : k = k₀
    · rw [show mapErase k ((k₀, v₀) :: rest) = rest by simp [mapErase, he]]
      exact List.sublist_cons_self (k₀, v₀) rest
    · rw [show mapErase k ((k₀, v₀) :: rest) = (k₀, v₀) :: mapErase k rest by
        simp [mapErase, he]]
      exact List.Sublist.cons₂ (k₀, v₀) ih

theorem length_mapInsert_absent {k : Key} {l : List (Key × T)} (v : T)
    (h : mapFind k l = none) : (mapInsert k v l).length = l.length + 1 := by
  induction l with
  | nil => simp [mapInsert]
  | cons p rest ih =>
    obtain ⟨k₀, v₀⟩ := p
    by_cases he : k = k₀
    · simp [mapFind, he] at h
    · simp [mapFind, he] at h
      by_cases h₁ : Key.lt k k₀ = true
      · simp [mapInsert, h₁]
      · by_cases h₂ : Key.lt k₀ k = true
        · simp [mapInsert, h₁, h₂, ih h]
        · exact absurd (Key.eq_of_both_not_lt h₁ h₂) he

theorem length_mapInsert_present {k : Key} {w : T} {l : List (Key × T)} (v : T)
    (hs : l.Pairwise (fun a b => Key.lt a.1 b.1 = true))
    (h : mapFind k l = some w) : (mapInsert k v l).length = l.length := by
  induction l with
  | nil => simp [mapFind] at h
  | cons p rest ih =>
    obtain ⟨k₀, v₀⟩ := p
    rcases List.pairwise_cons.mp hs with ⟨hall, hrest⟩
    by_cases h₁ : Key.lt k k₀ = true
    · have hne : k ≠ k₀ := Key.ne_of_lt h₁
      simp [mapFind, hne] at h
      have hk : Key.lt k₀ k = true := hall _ (mapFind_mem h)
      have : Key.lt k k = true := Key.lt_trans h₁ hk
      simp [Key.lt_self] at this
    · by_cases h₂ : Key.lt k₀ k = true
      · have hne : k ≠ k₀ := fun he => Key.ne_of_lt h₂ he.symm
        simp [mapFind, hne] at h
        simp [mapInsert, h₁, h₂, ih hrest h]
      · simp [mapInsert, h₁, h₂]

theorem length_mapErase_present {k : Key} {w : T} {l : List (Key × T)}
    (h : mapFind k l = some w) : (mapErase k l).length + 1 = l.length := by
  induction l with
  | nil => simp [mapFind] at h
  | cons p rest ih =>
    obtain ⟨k₀, v₀⟩ := p
    by_cases he : k = k₀
    · simp [mapErase, he]
    · simp [mapFind, he] at h
      simp [mapErase, he, ih h]

theorem mapErase_absent {k : Key} {l : List (Key × T)}
    (h : mapFind k l = none) : mapErase k l = l := by
  induction l with
  | nil => simp [mapErase]
  | cons p rest ih =>
    obtain ⟨k₀, v₀⟩ := p
    by_cases he : k = k₀
    · simp [mapFind, he] at h
    · simp [mapFind, he] at h
      simp [mapErase, he, ih h]

theorem mapFind_mapErase_self {k : Key} {l : List (Key × T)}
    (hs : l.Pairwise (fun a b => Key.lt a.1 b.1 = true)) :
    mapFind k (mapErase k l) = none := by
  induction l with
  | nil => simp [mapErase, mapFind]
  | cons p rest ih =>
    obtain ⟨k₀, v₀⟩ := p
    rcases List.pairwise_cons.mp hs with ⟨hall, hrest⟩
    by_cases he : k = k₀
    · subst he
      simp [mapErase]
      exact mapFind_eq_none fun q hq => Key.ne_of_lt (hall _ hq)
    · simp [mapErase, he, mapFind, he, ih hrest]

theorem mem_mapInsert {p : Key × T} {k : Key} {v : T} {l : List (Key × T)}
    (h : p ∈ mapInsert k v l) : p = (k, v) ∨ p ∈ l := by
  induction l with
  | nil =>
    simp only [mapInsert, List.mem_singleton] at h
    exact Or.inl h
  | cons q rest ih =>
    obtain ⟨k₀, v₀⟩ := q
    by_cases h₁ : Key.lt k k₀ = true
    · rw [show mapInsert k v ((k₀, v₀) :: rest) = (k, v) :: (k₀, v₀) :: rest by
        simp [mapInsert, h₁]] at h
      rcases List.mem_cons.mp h with h | h
      · exact Or.inl h
      · exact Or.inr h
    · by_cases h₂ : Key.lt k₀ k = true
      · rw [show mapInsert k v ((k₀, v₀) :: rest) = (k₀, v₀) :: mapInsert k v rest by
          simp [mapInsert, h₁, h₂]] at h
        rcases List.mem_cons.mp h with h | h
        · exact Or.inr (List.mem_cons.mpr (Or.inl h))
        · rcases ih h with h | h
          · exact Or.inl h
          · exact Or.inr (List.mem_cons.mpr (Or.inr h))
      · rw [show mapInsert k v ((k₀, v₀) :: rest) = (k, v) :: rest by
          simp [mapInsert, h₁, h₂]] at h
        rcases List.mem_cons.mp h with h | h
        · exact Or.inl h
        · exact Or.inr (List.mem_cons.mpr (Or.inr h))

theorem pairwise_mapInsert {k : Key} {v : T} {l : List (Key × T)}
    (hs : l.Pairwise (fun a b => Key.lt a.1 b.1 = true)) :
    (mapInsert k v l).Pairwise (fun a b => Key.lt a.1 b.1 = true) := by
  induction l with
  | nil => simp [mapInsert]
  | cons p rest ih =>
    obtain ⟨k₀, v₀⟩ := p
    rcases List.pairwise_cons.mp hs with ⟨hall, hrest⟩
    by_cases h₁ : Key.lt k k₀ = true
    · rw [show mapInsert k v ((k₀, v₀) :: rest) = (k, v) :: (k₀, v₀) :: rest by
        simp [mapInsert, h₁]]
      refine List.pairwise_cons.mpr ⟨?_, hs⟩
      intro q hq
      rcases List.mem_cons.mp hq with h | h
      · simp [h, h₁]
      · exact Key.lt_trans h₁ (hall _ h)
    · by_cases h₂ : Key.lt k₀ k = true
      · simp only [mapInsert, h₁, h₂, if_true, if_false]
        refine List.pairwise_cons.mpr ⟨?_, ih hrest⟩
        intro q hq
        rcases mem_mapInsert hq with h | h
        · simp [h, h₂]
        · exact hall _ h
      · have he : k = k₀ := Key.eq_of_both_not_lt h₁ h₂
        subst he
        simp only [mapInsert, h₁, h₂, if_false]
        exact List.pairwise_cons.mpr ⟨fun q hq => hall _ hq, hrest⟩

theorem pairwise_mapErase {k : Key} {l : List (Key × T)}
    (hs : l.Pairwise (fun a b => Key.lt a.1 b.1 = true)) :
    (mapErase k l).Pairwise (fun a b => Key.lt a.1 b.1 = true) :=
  hs.sublist (mapErase_sublist k l)

/-! Invariant-preservation lemmas for the container operations. -/

theorem Matrix.wf_empty : (Matrix.empty (T := T)).Wf := by
  simp [Matrix.empty, Matrix.Wf]

theorem Matrix.wf_set {m : Matrix T} (D : T) (x y : Int) (v : T)
    (h : m.Wf) : (m.set D x y v).Wf := by
  unfold Matrix.set
  by_cases hv : v = D
  · simpa [hv, Matrix.Wf] using pairwise_mapErase h
  · simpa [hv, Matrix.Wf] using pairwise_mapInsert h

theorem noDefault_empty (D : T) : noDefault D (Matrix.empty (T := T)) := by
  simp [Matrix.empty, noDefault]

theorem noDefault_set {D : T} {m : Matrix T} (x y : Int) (v : T)
    (h : noDefault D m) : noDefault D (m.set D x y v) := by
  unfold Matrix.set
  by_cases hv : v = D
  · simp only [hv, if_true]
    intro p hp
    exact h p ((mapErase_sublist _ _).mem hp)
  · simp only [hv, if_false]
    intro p hp
    rcases mem_mapInsert hp with he | hmem
    · simpa [he] using hv
    · exact h p hmem

/-! Claim theorems. -/

/-- C1: every operation preserves the no-default-entries invariant, and for
every sequence of writes on a fresh container no stored entry ever holds
the Default value. -/
theorem claim_C1_no_default_invariant (T : Type) [DecidableEq T] (D : T) :
    (∀ (m : Matrix T) (x y : Int) (v : T),
        noDefault D m → noDefault D (m.set D x y v)) ∧
    (∀ ops : List (Int × Int × T), noDefault D (applyOps D ops Matrix.empty)) := by
  have hpres : ∀ (m : Matrix T) (x y : Int) (v : T),
      noDefault D m → noDefault D (m.set D x y v) :=
    fun _ x y v h => noDefault_set x y v h
  refine ⟨hpres, ?_⟩
  have hall : ∀ (ops : List (Int × Int × T)) (m : Matrix T),
      noDefault D m → noDefault D (applyOps D ops m) := by
    intro ops
    induction ops with
    | nil => intro m h; simpa [applyOps] using h
    | cons op rest ih =>
      intro m h
      simpa [applyOps] using ih _ (hpres _ op.1 op.2.1 op.2.2 h)
  exact fun ops => hall ops _ (noDefault_empty D)

/-- Witness for C1 at concrete inputs. -/
theorem claim_C1_no_default_invariant_witness :
    noDefault (0 : Int) ((Matrix.empty (T := Int)).set 0 1 2 5) ∧
    noDefault (0 : Int) (applyOps 0 [(1, 2, 5), (3, 4, 0)] (Matrix.empty (T := Int))) :=
  ⟨(claim_C1_no_default_invariant Int 0).1 Matrix.empty 1 2 5 (noDefault_empty 0),
   (claim_C1_no_default_invariant Int 0).2 [(1, 2, 5), (3, 4, 0)]⟩

/-- C2: assignment through a cell handle writes through Matrix::set and
returns the same cell handle, and the chained assignment of 314, then 0,
then 217 to cell (100, 100) of a fresh container leaves that cell reading
217 with exactly one occupied entry. -/
theorem claim_C2_chained_assignment :
    (∀ (T : Type) (_ : DecidableEq T) (D v : T) (c : CellProxy T),
        (c.assign D v).x_ = c.x_ ∧ (c.assign D v).y_ = c.y_ ∧
        (c.assign D v).m_ = c.m_.set D c.x_ c.y_ v) ∧
    ((((((Matrix.empty (T := Int)).idx 100).idx 100).assign 0 314).assign
        0 0).assign 0 217).read 0 = 217 ∧
    ((((((Matrix.empty (T := Int)).idx 100).idx 100).assign 0 314).assign
        0 0).assign 0 217).m_.size = 1 ∧
    ((((((Matrix.empty (T := Int)).idx 100).idx 100).assign 0 314).assign
        0 0).assign 0 217).x_ = 100 ∧
    ((((((Matrix.empty (T := Int)).idx 100).idx 100).assign 0 314).assign
        0 0).assign 0 217).y_ = 100 :=
  ⟨fun _ _ _ _ _ => ⟨rfl, rfl, rfl⟩, by decide, by decide, by decide, by decide⟩

/-- C3: after writing a non-default value, reading the cell returns that
value, and the occupied count grows by one when the cell was unoccupied. -/
theorem claim_C3_write_read_roundtrip (T : Type) [DecidableEq T] (D : T)
    (m : Matrix T) (x y : Int) (v : T) (hv : v ≠ D) :
    (((m.set D x y v).idx x).idx y).read D = v ∧
    (m.find x y = none → (m.set D x y v).size = m.size + 1) := by
  constructor
  · simp [CellProxy.read, RowProxy.idx, Matrix.idx, Matrix.find, Matrix.set,
      hv, mapFind_mapInsert_self]
  · intro h
    rw [Matrix.find] at h
    simp only [Matrix.set, if_neg hv, Matrix.size]
    exact length_mapInsert_absent v h

/-- Witness for C3 at concrete inputs. -/
theorem claim_C3_write_read_roundtrip_witness :
    ((((Matrix.empty (T := Int)).set 0 3 4 7).idx 3).idx 4).read 0 = 7 ∧
    ((Matrix.empty (T := Int)).set 0 3 4 7).size = (Matrix.empty (T := Int)).size + 1 :=
  ⟨(claim_C3_write_read_roundtrip Int 0 Matrix.empty 3 4 7 (by decide)).1,
   (claim_C3_write_read_roundtrip Int 0 Matrix.empty 3 4 7 (by decide)).2 (by decide)⟩

/-- C4: writing Default to an occupied cell shrinks the occupied count by
one and the cell reads back Default; writing Default to an unoccupied cell
leaves the count unchanged. -/
theorem claim_C4_default_elides (T : Type) [DecidableEq T] (D : T)
    (m : Matrix T) (x y : Int) (hwf : m.Wf) :
    (m.find x y ≠ none → (m.set D x y D).size + 1 = m.size) ∧
    (((m.set D x y D).idx x).idx y).read D = D ∧
    (m.find x y = none → (m.set D x y D).size = m.size) := by
  unfold Matrix.Wf at hwf
  refine ⟨?_, ?_, ?_⟩
  · intro h
    rcases Option.ne_none_iff_exists'.mp h with ⟨w, hw⟩
    rw [Matrix.find] at hw
    simp only [Matrix.set, if_pos rfl, if_true, Matrix.size]
    exact length_mapErase_present hw
  · simp only [CellProxy.read, RowProxy.idx, Matrix.idx, Matrix.find,
      Matrix.set, if_pos rfl, if_true]
    rw [mapFind_mapErase_self hwf]
    rfl
  · intro h
    rw [Matrix.find] at h
    simp only [Matrix.set, if_pos rfl, if_true, Matrix.size, mapErase_absent h]

/-- Witness for C4 at concrete inputs. -/
theorem claim_C4_default_elides_witness :
    (((Matrix.empty (T := Int)).set 0 1 2 5).set 0 1 2 0).size + 1
      = ((Matrix.empty (T := Int)).set 0 1 2 5).size ∧
    ((((((Matrix.empty (T := Int)).set 0 1 2 5).set 0 1 2 0)).idx 1).idx 2).read 0 = 0 ∧
    ((Matrix.empty (T := Int)).set 0 3 3 0).size = (Matrix.empty (T := Int)).size :=
  ⟨(claim_C4_default_elides Int 0 ((Matrix.empty (T := Int)).set 0 1 2 5) 1 2
      (Matrix.wf_set 0 1 2 5 Matrix.wf_empty)).1 (by decide),
   (claim_C4_default_elides Int 0 ((Matrix.empty (T := Int)).set 0 1 2 5) 1 2
      (Matrix.wf_set 0 1 2 5 Matrix.wf_empty)).2.1,
   (claim_C4_default_elides Int 0 (Matrix.empty (T := Int)) 3 3
      Matrix.wf_empty).2.2 (by decide)⟩

/-- C5: the read conversion of a fresh cell handle is exactly the current
lookup with Default for absent entries: it returns the stored value when
occupied and Default when absent. -/
theorem claim_C5_read_conversion (T : Type) [DecidableEq T] (D : T)
    (m : Matrix T) (x y : Int) :
    (((m.idx x).idx y).read D = (m.find x y).getD D) ∧
    (∀ w, m.find x y = some w → ((m.idx x).idx y).read D = w) ∧
    (m.find x y = none → ((m.idx x).idx y).read D = D) := by
  refine ⟨rfl, ?_, ?_⟩
  · intro w hw
    simp [CellProxy.read, RowProxy.idx, Matrix.idx, hw]
  · intro h
    simp [CellProxy.read, RowProxy.idx, Matrix.idx, h]

/-- Witness for C5 at concrete inputs. -/
theorem claim_C5_read_conversion_witness :
    ((((Matrix.empty (T := Int)).set 0 1 2 5).idx 1).idx 2).read 0 = 5 ∧
    (((Matrix.empty (T := Int)).idx 7).idx 8).read 0 = 0 :=
  ⟨(claim_C5_read_conversion Int 0 ((Matrix.empty (T := Int)).set 0 1 2 5) 1 2).2.1
      5 (by decide),
   (claim_C5_read_conversion Int 0 (Matrix.empty (T := Int)) 7 8).2.2 (by decide)⟩

/-- C6: a full traversal yields exactly one triple per occupied cell,
ascending by x then y, as many triples as the occupied count; and after
writing a at (2, 1), b at (1, 5), c at (1, 2) on a fresh container the
traversal yields (1, 2, c), (1, 5, b), (2, 1, a) in that order. -/
theorem claim_C6_traversal (T : Type) [DecidableEq T] (D : T)
    (m : Matrix T) (hwf : m.Wf)
    (a b c : T) (ha : a ≠ D) (hb : b ≠ D) (hc : c ≠ D) :
    m.toList.length = m.size ∧
    (∀ (x y : Int) (v : T), (x, y, v) ∈ m.toList ↔ m.find x y = some v) ∧
    m.toList.Pairwise (fun p q => p.1 < q.1 ∨ (p.1 = q.1 ∧ p.2.1 < q.2.1)) ∧
    ((((Matrix.empty (T := T)).set D 2 1 a).set D 1 5 b).set D 1 2 c).toList
      = [(1, 2, c), (1, 5, b), (2, 1, a)] := by
  unfold Matrix.Wf at hwf
  refine ⟨?_, ?_, ?_, ?_⟩
  · simp [Matrix.toList, Matrix.size]
  · intro x y v
    constructor
    · intro hmem
      rcases List.mem_map.mp hmem with ⟨⟨⟨px, py⟩, pv⟩, hp, heq⟩
      simp only [Prod.mk.injEq] at heq
      rcases heq with ⟨hex, hey, hev⟩
      rw [Matrix.find]
      subst hex
      subst hey
      subst hev
      exact mapFind_of_mem hwf hp
    · intro hfind
      rw [Matrix.find] at hfind
      exact List.mem_map.mpr ⟨(⟨x, y⟩, v), mapFind_mem hfind, rfl⟩
  · refine List.pairwise_map.mpr (hwf.imp ?_)
    intro p q hlt
    exact (Key.lt_iff _ _).mp hlt
  · simp only [Matrix.empty, Matrix.set, if_neg ha, if_neg hb, if_neg hc,
      mapInsert, Matrix.toList]
    norm_num [Key.lt]

/-- Witness for C6 at concrete inputs. -/
theorem claim_C6_traversal_witness :
    ((((Matrix.empty (T := Int)).set 0 2 1 10).set 0 1 5 20).set 0 1 2 30).toList.length
      = ((((Matrix.empty (T := Int)).set 0 2 1 10).set 0 1 5 20).set 0 1 2 30).size ∧
    (((1 : Int), (5 : Int), (20 : Int))
        ∈ ((((Matrix.empty (T := Int)).set 0 2 1 10).set 0 1 5 20).set 0 1 2 30).toList
      ↔ ((((Matrix.empty (T := Int)).set 0 2 1 10).set 0 1 5 20).set 0 1 2 30).find 1 5
          = some 20) ∧
    ((((Matrix.empty (T := Int)).set 0 2 1 10).set 0 1 5 20).set 0 1 2 30).toList.Pairwise
      (fun p q => p.1 < q.1 ∨ (p.1 = q.1 ∧ p.2.1 < q.2.1)) ∧
    ((((Matrix.empty (T := Int)).set 0 2 1 10).set 0 1 5 20).set 0 1 2 30).toList
      = [(1, 2, 30), (1, 5, 20), (2, 1, 10)] := by
  have h := claim_C6_traversal Int 0
    ((((Matrix.empty (T := Int)).set 0 2 1 10).set 0 1 5 20).set 0 1 2 30)
    (Matrix.wf_set 0 1 2 30 (Matrix.wf_set 0 1 5 20
      (Matrix.wf_set 0 2 1 10 Matrix.wf_empty)))
    10 20 30 (by decide) (by decide) (by decide)
  exact ⟨h.1, h.2.1 1 5 20, h.2.2.1, h.2.2.2⟩

/-- C7: the first index, the second index and the read conversion leave the
backing storage unchanged: the proxies merely bind coordinates over the
same container state. -/
theorem claim_C7_index_frame (T : Type) [DecidableEq T] (D : T)
    (m : Matrix T) (x y : Int) :
    (m.idx x).m_ = m ∧
    ((m.idx x).idx y).m_ = m ∧
    ((m.idx x).idx y).read D = (m.find x y).getD D ∧
    ((m.idx x).idx y).m_.data_ = m.data_ ∧
    ((m.idx x).idx y).m_.size = m.size :=
  ⟨rfl, rfl, rfl, rfl, rfl⟩

/-- C9: a write touches only its own coordinate: reading any other
coordinate after the write gives the same value as before it. -/
theorem claim_C9_write_frame (T : Type) [DecidableEq T] (D : T)
    (m : Matrix T) (x y x₁ y₁ : Int) (v : T) (h : (x₁, y₁) ≠ (x, y)) :
    (((m.set D x y v).idx x₁).idx y₁).read D = ((m.idx x₁).idx y₁).read D := by
  have hk : (⟨x₁, y₁⟩ : Key) ≠ ⟨x, y⟩ := by
    intro he
    exact h (by cases he; rfl)
  simp only [CellProxy.read, RowProxy.idx, Matrix.idx, Matrix.find, Matrix.set]
  by_cases hv : v = D
  · rw [if_pos hv, mapFind_mapErase_other hk]
  · rw [if_neg hv, mapFind_mapInsert_other hk]

/-- Witness for C9 at concrete inputs. -/
theorem claim_C9_write_frame_witness :
    ((((Matrix.empty (T := Int)).set 0 1 2 5).idx 3).idx 4).read 0
      = (((Matrix.empty (T := Int)).idx 3).idx 4).read 0 :=
  claim_C9_write_frame Int 0 Matrix.empty 1 2 3 4 5 (by decide)

/-- C10: overwriting an occupied cell with a non-default value leaves the
occupied count unchanged. -/
theorem claim_C10_overwrite_keeps_size (T : Type) [DecidableEq T] (D : T)
    (m : Matrix T) (x y : Int) (v : T) (hwf : m.Wf)
    (hocc : m.find x y ≠ none) (hv : v ≠ D) :
    (m.set D x y v).size = m.size := by
  rcases Option.ne_none_iff_exists'.mp hocc with ⟨w, hw⟩
  rw [Matrix.find] at hw
  unfold Matrix.Wf at hwf
  simp only [Matrix.set, if_neg hv, Matrix.size]
  exact length_mapInsert_present v hwf hw

/-- Witness for C10 at concrete inputs. -/
theorem claim_C10_overwrite_keeps_size_witness :
    (((Matrix.empty (T := Int)).set 0 1 2 5).set 0 1 2 9).size
      = ((Matrix.empty (T := Int)).set 0 1 2 5).size :=
  claim_C10_overwrite_keeps_size Int 0 ((Matrix.empty (T := Int)).set 0 1 2 5)
    1 2 9 (Matrix.wf_set 0 1 2 5 Matrix.wf_empty) (by decide) (by decide)

end sparse
